import Mathlib

/-!
The header `include/SDL_begin_config_private.h` of the sorvi SDL3 port.

The header is fifteen lines of preprocessor directives.  Its meaning is the
effect it has on the state of the C preprocessor, so the development has two
layers:

* a small executable model of the preprocessor operations the header uses
  (`#define`, `#undef`, `#if`, `#include`, `#pragma once`, and the expansion
  of object-like macros), following ISO C 6.10;
* the header itself, transcribed directive by directive on top of that model
  (`renameBlock`, `compatPrelude`, `compatBlock`, `headerLines`,
  `SDL_begin_config_private`).

The file `dynapi/SDL_dynapi_overrides.h` named on line 13 is not part of the
sources at hand.  The header is therefore parameterised by the effect of that
file on the macro environment.

Fragment covered by the model: macros are object-like (a name and a
replacement list of tokens); a controlling expression of `#if` is evaluated
when its macro expansion is a single token.
-/

namespace SorviConfig

/-! ## Preprocessor model -/

/-- A preprocessing token, kept as its spelling. -/
abbrev Token := String

/-- The macro environment: the object-like macros currently defined, each with
its replacement list.  The first entry for a name is the active one. -/
abbrev MacroEnv := List (String × List Token)

/-- Reasons for which preprocessing stops. -/
inductive PPError where
  /-- A `#define` of a name that is already defined with another replacement
  list (ISO C 6.10.3p2). -/
  | redefinition (name : String)
  /-- A controlling expression of `#if` that is not an integer constant
  expression of the covered fragment. -/
  | invalidCondition (toks : List Token)
  deriving DecidableEq

/-- State of the preprocessor across inclusions: the macro environment and the
files that have announced `#pragma once`. -/
structure PPState where
  env : MacroEnv
  onceFiles : List String
  deriving DecidableEq

/-- An identifier: a letter or underscore followed by letters, digits and
underscores. -/
def isIdentifier (t : Token) : Bool :=
  match t.toList with
  | [] => false
  | c :: cs => (c.isAlpha || c == '_') && cs.all (fun d => d.isAlphanum || d == '_')

/-- The replacement list of `name`, if `name` is currently defined. -/
def macroLookup (env : MacroEnv) (name : String) : Option (List Token) :=
  env.lookup name

/-- The directive `#define name body`.  Defining a name that is not defined adds it.
Defining it again with the identical replacement list is allowed and changes
nothing; with a different replacement list it violates the constraint of
ISO C 6.10.3p2 and preprocessing stops. -/
def ppDefine (env : MacroEnv) (name : String) (body : List Token) : Except PPError MacroEnv :=
  match macroLookup env name with
  | none => .ok ((name, body) :: env)
  | some old => if old = body then .ok env else .error (.redefinition name)

/-- The directive `#undef name`: the name is no longer defined; it is ignored when
the name is not defined (ISO C 6.10.3.5p2). -/
def ppUndef (env : MacroEnv) (name : String) : MacroEnv :=
  env.filter (fun d => d.1 != name)

/-- A run of `#define` lines, processed top to bottom. -/
def ppDefineAll : List (String × List Token) → MacroEnv → Except PPError MacroEnv
  | [], env => .ok env
  | (name, body) :: rest, env =>
    match ppDefine env name body with
    | .ok env1 => ppDefineAll rest env1
    | .error e => .error e

/-- Macro replacement of one token with rescanning (ISO C 6.10.3.4).  `avail`
holds the macros that may still be replaced: while the replacement list of a
macro is rescanned the macro itself is not available (6.10.3.4p2).  Macros are
object-like, so a replacement never reaches into the tokens that follow.
Every replacement removes a name from `avail`, so `avail.length` steps
suffice (`expandToken_fuel`); the first argument counts them. -/
def expandToken : Nat → MacroEnv → Token → List Token
  | 0, _, t => [t]
  | fuel + 1, avail, t =>
    if isIdentifier t then
      match macroLookup avail t with
      | some body => body.flatMap (expandToken fuel (ppUndef avail t))
      | none => [t]
    else [t]

/-- Macro replacement of a token sequence. -/
def expand (env : MacroEnv) (toks : List Token) : List Token :=
  toks.flatMap (expandToken env.length env)

/-- Value of a digit character in bases up to sixteen. -/
def digitValue (c : Char) : Option Nat :=
  if c.isDigit then some (c.toNat - 48)
  else if 97 ≤ c.toNat ∧ c.toNat ≤ 102 then some (c.toNat - 87)
  else if 65 ≤ c.toNat ∧ c.toNat ≤ 70 then some (c.toNat - 55)
  else none

/-- Value of a non-empty digit sequence in the given base. -/
def digitsValue (base : Nat) (ds : List Char) : Option Nat :=
  if ds.isEmpty then none
  else ds.foldl
    (fun acc c =>
      match acc, digitValue c with
      | some a, some d => if d < base then some (a * base + d) else none
      | _, _ => none)
    (some 0)

/-- The integer suffixes of ISO C 6.4.4.1, the empty one included. -/
def intSuffixes : List String :=
  [ "", "u", "U", "l", "L", "ll", "LL",
    "ul", "uL", "Ul", "UL", "ull", "uLL", "Ull", "ULL",
    "lu", "lU", "Lu", "LU", "llu", "llU", "LLu", "LLU" ]

/-- Value of an integer constant: decimal, octal or hexadecimal digits with an
optional suffix (ISO C 6.4.4.1).  The size of the value is not limited; `#if`
only asks whether it is zero. -/
def intLiteral (t : Token) : Option Nat :=
  let isSuffixChar := fun (c : Char) => c == 'u' || c == 'U' || c == 'l' || c == 'L'
  let digits := t.toList.takeWhile (fun c => !isSuffixChar c)
  let suffix := String.mk (t.toList.dropWhile (fun c => !isSuffixChar c))
  if suffix ∈ intSuffixes then
    match digits with
    | '0' :: 'x' :: ds => digitsValue 16 ds
    | '0' :: 'X' :: ds => digitsValue 16 ds
    | '0' :: ds => if ds.isEmpty then some 0 else digitsValue 8 ds
    | ds => digitsValue 10 ds
  else none

/-- Identifiers whose meaning inside `#if` is not that of a plain identifier
(the operator `defined`) or differs between the C and C++ dialects. -/
def specialInIf : List Token := ["defined", "true", "false"]

/-- The directive `#if cond`: the controlling expression is macro-expanded, an
identifier that remains stands for `0` (ISO C 6.10.1p4), and the group is
taken when the value is not zero.  Expressions that expand to a single token
are evaluated; all others are rejected. -/
def ppIf (env : MacroEnv) (cond : List Token) : Except PPError Bool :=
  match expand env cond with
  | [t] =>
    if t ∈ specialInIf then .error (.invalidCondition [t])
    else if isIdentifier t then .ok false
    else
      match intLiteral t with
      | some v => .ok (v != 0)
      | none => .error (.invalidCondition [t])
  | ts => .error (.invalidCondition ts)

/-! ## The header -/

/-- Name under which the header is recorded by `#pragma once`. -/
def headerPath : String := "SDL_begin_config_private.h"

/-- The macro defined on line 2. -/
def SDL_PLATFORM_PRIVATE_NAME : String := "SDL_PLATFORM_PRIVATE_NAME"

/-- The flag tested on line 4. -/
def SDL_SORVI_SDL2_COMPAT_MODE : String := "SDL_SORVI_SDL2_COMPAT_MODE"

/-- The macro defined on line 12 and removed on line 14. -/
def SDL_DYNAMIC_API : String := "SDL_DYNAMIC_API"

/-- Lines 5 to 11: the `#define` lines of the compatibility block, in source
order, each as the macro name and its replacement list. -/
def renameBlock : List (String × List Token) :=
  [ ("SDL_CreateThreadWithStackSize", ["SDL_CreateThreadWithStackSize_REAL"]),
    ("SDL_VideoInit", ["SDL_VideoInit_REAL"]),
    ("SDL_VideoQuit", ["SDL_VideoQuit_REAL"]),
    ("SDL_SetRelativeMouseMode", ["SDL_SetRelativeMouseMode_REAL"]),
    ("SDL_GetRelativeMouseMode", ["SDL_GetRelativeMouseMode_REAL"]),
    ("SDL_LockSensors", ["SDL_LockSensors_REAL"]),
    ("SDL_UnlockSensors", ["SDL_UnlockSensors_REAL"]) ]

/-- The names defined by lines 5 to 11. -/
def renamedNames : List String := renameBlock.map Prod.fst

/-- Lines 5 to 12: everything the compatibility block does before it includes
the override table.  The result is the macro environment the included file
starts from. -/
def compatPrelude (env : MacroEnv) : Except PPError MacroEnv :=
  match ppDefineAll renameBlock env with
  | .ok env1 => ppDefine env1 SDL_DYNAMIC_API ["1"]
  | .error e => .error e

/-- Lines 5 to 14, the group controlled by `#if SDL_SORVI_SDL2_COMPAT_MODE`.
`overrides` is the effect of `dynapi/SDL_dynapi_overrides.h` (line 13) on the
macro environment. -/
def compatBlock (overrides : MacroEnv → Except PPError MacroEnv) (env : MacroEnv) :
    Except PPError MacroEnv :=
  match compatPrelude env with
  | .ok env1 =>
    match overrides env1 with
    | .ok env2 => .ok (ppUndef env2 SDL_DYNAMIC_API)
    | .error e => .error e
  | .error e => .error e

/-- Lines 2 to 15: the effect of the header's text on the macro environment. -/
def headerLines (overrides : MacroEnv → Except PPError MacroEnv) (env : MacroEnv) :
    Except PPError MacroEnv :=
  match ppDefine env SDL_PLATFORM_PRIVATE_NAME ["\"sorvi\""] with
  | .ok env1 =>
    match ppIf env1 [SDL_SORVI_SDL2_COMPAT_MODE] with
    | .ok true => compatBlock overrides env1
    | .ok false => .ok env1
    | .error e => .error e
  | .error e => .error e

/-- The directive `#include "SDL_begin_config_private.h"`.  A file that has announced
`#pragma once` (line 1) is skipped when it is included again; otherwise the
file is recorded and its lines are processed.  No directive removes a file
from the record, so the override table acts on the macro environment only. -/
def SDL_begin_config_private (overrides : MacroEnv → Except PPError MacroEnv)
    (st : PPState) : Except PPError PPState :=
  if headerPath ∈ st.onceFiles then .ok st
  else
    match headerLines overrides st.env with
    | .ok env1 => .ok (PPState.mk env1 (headerPath :: st.onceFiles))
    | .error e => .error e

/-- The header included `n` times in a row. -/
def includeTimes (overrides : MacroEnv → Except PPError MacroEnv) :
    Nat → PPState → Except PPError PPState
  | 0, st => .ok st
  | n + 1, st =>
    match SDL_begin_config_private overrides st with
    | .ok st1 => includeTimes overrides n st1
    | .error e => .error e

/-- Outcome of the test on line 4 when the header is processed from `env`: the
flag is evaluated in the environment that line 2 leaves behind. -/
def compatMode (env : MacroEnv) : Except PPError Bool :=
  match ppDefine env SDL_PLATFORM_PRIVATE_NAME ["\"sorvi\""] with
  | .ok env1 => ppIf env1 [SDL_SORVI_SDL2_COMPAT_MODE]
  | .error e => .error e

/-- Modelled from the spec: the contents of `dynapi/SDL_dynapi_overrides.h`, which is
not among the sources.  The spec describes it as an externally defined table
of additional overrides that may try to rename a symbol; it is taken as a list
of `#define` lines. -/
abbrev OverrideTable := List (String × List Token)

/-- Effect of including an override table: its `#define` lines are processed in
order. -/
def overridesTable (tbl : OverrideTable) : MacroEnv → Except PPError MacroEnv :=
  ppDefineAll tbl

/-- The `_REAL` counterpart of an entry-point name. -/
def realName (name : String) : String := name ++ "_REAL"

/-- One rename applied to a token sequence: every occurrence of the name is
replaced by the replacement list. -/
def renameOne (r : String × List Token) (toks : List Token) : List Token :=
  toks.flatMap (fun t => if t = r.1 then r.2 else [t])

/-- Renames applied one after the other, in the order of the list. -/
def renameSeq (rs : List (String × List Token)) (toks : List Token) : List Token :=
  rs.foldl (fun acc r => renameOne r acc) toks

/-- The tokens that stand for `t` under a list of renames: the replacement list of
`t` when `t` is renamed, and `t` itself otherwise. -/
def replacementOf (rs : List (String × List Token)) (t : Token) : List Token :=
  (macroLookup rs t).getD [t]

/-! ## Lemmas on the macro environment -/

theorem macroLookup_cons (env : MacroEnv) (n m : String) (b : List Token) :
    macroLookup ((n, b) :: env) m = if m = n then some b else macroLookup env m := by
  unfold macroLookup
  rw [List.lookup_cons]
  by_cases h : m = n
  · subst h; simp
  · have : (m == n) = false := by simpa using h
    simp [this, h]

theorem macroLookup_ppUndef_self (env : MacroEnv) (n : String) :
    macroLookup (ppUndef env n) n = none := by
  induction env with
  | nil => rfl
  | cons d env ih =>
    obtain ⟨k, b⟩ := d
    by_cases h : k = n
    · subst h; simpa [ppUndef] using ih
    · have hk : (k != n) = true := by simpa using h
      have : ppUndef ((k, b) :: env) n = (k, b) :: ppUndef env n := by
        simp [ppUndef, List.filter_cons, hk]
      rw [this, macroLookup_cons, if_neg (Ne.symm h)]
      exact ih

theorem macroLookup_ppUndef_other (env : MacroEnv) (n m : String) (h : m ≠ n) :
    macroLookup (ppUndef env n) m = macroLookup env m := by
  induction env with
  | nil => rfl
  | cons d env ih =>
    obtain ⟨k, b⟩ := d
    by_cases hk : k = n
    · subst hk
      have : ppUndef ((k, b) :: env) k = ppUndef env k := by simp [ppUndef]
      rw [this, macroLookup_cons, if_neg h]
      exact ih
    · have hk2 : (k != n) = true := by simpa using hk
      have : ppUndef ((k, b) :: env) n = (k, b) :: ppUndef env n := by
        simp [ppUndef, List.filter_cons, hk2]
      rw [this, macroLookup_cons, macroLookup_cons, ih]

theorem ppUndef_length_le (env : MacroEnv) (n : String) :
    (ppUndef env n).length ≤ env.length := by
  unfold ppUndef
  exact List.length_filter_le _ _

theorem ppUndef_length_lt (env : MacroEnv) (n : String) (b : List Token)
    (h : macroLookup env n = some b) : (ppUndef env n).length < env.length := by
  induction env with
  | nil => simp [macroLookup] at h
  | cons d env ih =>
    obtain ⟨k, c⟩ := d
    by_cases hk : k = n
    · subst hk
      have : ppUndef ((k, c) :: env) k = ppUndef env k := by simp [ppUndef]
      rw [this]
      exact Nat.lt_succ_of_le (ppUndef_length_le env k)
    · have hk2 : (k != n) = true := by simpa using hk
      have : ppUndef ((k, c) :: env) n = (k, c) :: ppUndef env n := by
        simp [ppUndef, List.filter_cons, hk2]
      rw [this]
      rw [macroLookup_cons, if_neg (Ne.symm hk)] at h
      simpa using ih h

theorem ppDefine_ok_cases (env env1 : MacroEnv) (n : String) (b : List Token)
    (h : ppDefine env n b = .ok env1) :
    (macroLookup env n = none ∧ env1 = (n, b) :: env) ∨
      (macroLookup env n = some b ∧ env1 = env) := by
  unfold ppDefine at h
  cases hl : macroLookup env n with
  | none =>
    rw [hl] at h
    left
    simp only [Except.ok.injEq] at h
    exact ⟨rfl, h.symm⟩
  | some old =>
    rw [hl] at h
    right
    by_cases ho : old = b
    · subst ho
      simp only [if_true, Except.ok.injEq] at h
      exact ⟨rfl, h.symm⟩
    · simp [ho] at h

theorem ppDefine_error_cases (env : MacroEnv) (n : String) (b : List Token) (e : PPError)
    (h : ppDefine env n b = .error e) :
    e = .redefinition n ∧ ∃ old, macroLookup env n = some old ∧ old ≠ b := by
  unfold ppDefine at h
  cases hl : macroLookup env n with
  | none => rw [hl] at h; simp at h
  | some old =>
    rw [hl] at h
    by_cases ho : old = b
    · simp [ho] at h
    · simp only [if_neg ho, Except.error.injEq] at h
      exact ⟨h.symm, old, rfl, ho⟩

theorem ppDefine_undefined (env : MacroEnv) (n : String) (b : List Token)
    (h : macroLookup env n = none) : ppDefine env n b = .ok ((n, b) :: env) := by
  simp [ppDefine, h]

theorem ppDefine_same (env : MacroEnv) (n : String) (b : List Token)
    (h : macroLookup env n = some b) : ppDefine env n b = .ok env := by
  simp [ppDefine, h]

theorem macroLookup_ppDefine_self (env env1 : MacroEnv) (n : String) (b : List Token)
    (h : ppDefine env n b = .ok env1) : macroLookup env1 n = some b := by
  rcases ppDefine_ok_cases env env1 n b h with ⟨_, rfl⟩ | ⟨h1, rfl⟩
  · simp [macroLookup_cons]
  · exact h1

theorem macroLookup_ppDefine_other (env env1 : MacroEnv) (n m : String) (b : List Token)
    (h : ppDefine env n b = .ok env1) (hm : m ≠ n) :
    macroLookup env1 m = macroLookup env m := by
  rcases ppDefine_ok_cases env env1 n b h with ⟨_, rfl⟩ | ⟨_, rfl⟩
  · simp [macroLookup_cons, hm]
  · rfl

theorem macroLookup_ppDefine_keep (env env1 : MacroEnv) (n m : String) (b c : List Token)
    (h : ppDefine env n b = .ok env1) (hm : macroLookup env m = some c) :
    macroLookup env1 m = some c := by
  rcases ppDefine_ok_cases env env1 n b h with ⟨h0, rfl⟩ | ⟨_, rfl⟩
  · by_cases hmn : m = n
    · subst hmn; rw [h0] at hm; cases hm
    · simp [macroLookup_cons, hmn, hm]
  · exact hm

theorem ppDefineAll_keep (ds : List (String × List Token)) :
    ∀ (env env1 : MacroEnv) (m : String) (c : List Token),
      ppDefineAll ds env = .ok env1 → macroLookup env m = some c →
      macroLookup env1 m = some c := by
  induction ds with
  | nil =>
    intro env env1 m c h hm
    simp only [ppDefineAll, Except.ok.injEq] at h
    subst h; exact hm
  | cons d ds ih =>
    obtain ⟨n, b⟩ := d
    intro env env1 m c h hm
    simp only [ppDefineAll] at h
    cases hd : ppDefine env n b with
    | error e => rw [hd] at h; simp at h
    | ok env2 =>
      rw [hd] at h
      exact ih env2 env1 m c h (macroLookup_ppDefine_keep env env2 n m b c hd hm)

theorem ppDefineAll_defines (ds : List (String × List Token)) :
    ∀ (env env1 : MacroEnv) (n : String) (b : List Token),
      ppDefineAll ds env = .ok env1 → (n, b) ∈ ds → macroLookup env1 n = some b := by
  induction ds with
  | nil => intro env env1 n b _ hmem; cases hmem
  | cons d ds ih =>
    obtain ⟨k, c⟩ := d
    intro env env1 n b h hmem
    simp only [ppDefineAll] at h
    cases hd : ppDefine env k c with
    | error e => rw [hd] at h; simp at h
    | ok env2 =>
      rw [hd] at h
      rcases List.mem_cons.mp hmem with heq | htl
      · cases heq
        exact ppDefineAll_keep ds env2 env1 k c h (macroLookup_ppDefine_self env env2 k c hd)
      · exact ih env2 env1 n b h htl

theorem ppDefineAll_other (ds : List (String × List Token)) :
    ∀ (env env1 : MacroEnv) (m : String),
      ppDefineAll ds env = .ok env1 → (∀ d ∈ ds, d.1 ≠ m) →
      macroLookup env1 m = macroLookup env m := by
  induction ds with
  | nil =>
    intro env env1 m h _
    simp only [ppDefineAll, Except.ok.injEq] at h
    subst h; rfl
  | cons d ds ih =>
    obtain ⟨k, c⟩ := d
    intro env env1 m h hne
    simp only [ppDefineAll] at h
    cases hd : ppDefine env k c with
    | error e => rw [hd] at h; simp at h
    | ok env2 =>
      rw [hd] at h
      rw [ih env2 env1 m h (fun d hd2 => hne d (List.mem_cons_of_mem _ hd2))]
      exact macroLookup_ppDefine_other env env2 k m c hd
        (Ne.symm (hne (k, c) (List.mem_cons_self _ _)))

theorem expandToken_undefined (fuel : Nat) (avail : MacroEnv) (t : Token)
    (h : macroLookup avail t = none) : expandToken fuel avail t = [t] := by
  cases fuel with
  | zero => rfl
  | succ f => simp [expandToken, h]

theorem expandToken_rename (fuel : Nat) (avail : MacroEnv) (n r : Token)
    (hid : isIdentifier n = true) (hn : macroLookup avail n = some [r])
    (hr : macroLookup avail r = none) : expandToken (fuel + 1) avail n = [r] := by
  have hr2 : macroLookup (ppUndef avail n) r = none := by
    by_cases hrn : r = n
    · subst hrn; exact macroLookup_ppUndef_self avail r
    · rw [macroLookup_ppUndef_other avail n r hrn]; exact hr
  simp [expandToken, hid, hn, expandToken_undefined fuel _ r hr2]

theorem expand_append (env : MacroEnv) (l r : List Token) :
    expand env (l ++ r) = expand env l ++ expand env r := by
  simp [expand, List.flatMap_append]

theorem expand_cons (env : MacroEnv) (t : Token) (r : List Token) :
    expand env (t :: r) = expandToken env.length env t ++ expand env r := by
  simp [expand, List.flatMap_cons]

theorem length_pos_of_macroLookup (env : MacroEnv) (n : String) (b : List Token)
    (h : macroLookup env n = some b) : ∃ k, env.length = k + 1 := by
  cases env with
  | nil => simp [macroLookup] at h
  | cons d env => exact ⟨env.length, rfl⟩

/-- The step count of `expand` is enough: any count that covers the available
macros gives the same expansion. -/
theorem expandToken_fuel (f1 : Nat) :
    ∀ (f2 : Nat) (avail : MacroEnv) (t : Token), avail.length ≤ f1 → avail.length ≤ f2 →
      expandToken f1 avail t = expandToken f2 avail t := by
  induction f1 with
  | zero =>
    intro f2 avail t h1 _
    have hnil : avail = [] := List.length_eq_zero.mp (Nat.le_zero.mp h1)
    subst hnil
    rw [expandToken_undefined 0 [] t rfl, expandToken_undefined f2 [] t rfl]
  | succ f ih =>
    intro f2 avail t h1 h2
    cases f2 with
    | zero =>
      have hnil : avail = [] := List.length_eq_zero.mp (Nat.le_zero.mp h2)
      subst hnil
      rw [expandToken_undefined (f + 1) [] t rfl, expandToken_undefined 0 [] t rfl]
    | succ g =>
      unfold expandToken
      by_cases hti : isIdentifier t = true
      · rw [if_pos hti, if_pos hti]
        cases hl : macroLookup avail t with
        | none => rfl
        | some body =>
          have hlt := ppUndef_length_lt avail t body hl
          have : expandToken f (ppUndef avail t) = expandToken g (ppUndef avail t) :=
            funext (fun u => ih g (ppUndef avail t) u (by omega) (by omega))
          simp only [this]
      · rw [if_neg hti, if_neg hti]

/-- A name that is renamed to a token which is not a macro never survives
expansion, provided the step count covers the available macros. -/
theorem not_mem_expandToken (n r : Token) (hid : isIdentifier n = true) (hrn : r ≠ n) :
    ∀ (fuel : Nat) (avail : MacroEnv) (t : Token), avail.length ≤ fuel →
      macroLookup avail n = some [r] → macroLookup avail r = none →
      n ∉ expandToken fuel avail t := by
  intro fuel
  induction fuel with
  | zero =>
    intro avail t hlen hn _
    obtain ⟨k, hk⟩ := length_pos_of_macroLookup avail n [r] hn
    omega
  | succ f ih =>
    intro avail t hlen hn hr
    by_cases htn : t = n
    · subst htn
      rw [expandToken_rename f avail t r hid hn hr]
      simpa using Ne.symm hrn
    · unfold expandToken
      by_cases hti : isIdentifier t = true
      · rw [if_pos hti]
        cases hl : macroLookup avail t with
        | none => simpa using Ne.symm htn
        | some body =>
          simp only [List.mem_flatMap, not_exists, not_and]
          intro u _
          have hlt := ppUndef_length_lt avail t body hl
          apply ih (ppUndef avail t) u (by omega)
          · rw [macroLookup_ppUndef_other avail t n (Ne.symm htn)]; exact hn
          · by_cases hrt : r = t
            · subst hrt; exact macroLookup_ppUndef_self avail r
            · rw [macroLookup_ppUndef_other avail t r hrt]; exact hr
      · rw [if_neg hti]
        simpa using Ne.symm htn

theorem not_mem_expand (env : MacroEnv) (n r : Token) (hid : isIdentifier n = true)
    (hrn : r ≠ n) (hn : macroLookup env n = some [r]) (hr : macroLookup env r = none)
    (toks : List Token) : n ∉ expand env toks := by
  unfold expand
  simp only [List.mem_flatMap, not_exists, not_and]
  intro t _
  exact not_mem_expandToken n r hid hrn env.length env t (Nat.le_refl _) hn hr

/-! ## Lemmas on the header -/

theorem dynamic_ne_platform : SDL_DYNAMIC_API ≠ SDL_PLATFORM_PRIVATE_NAME := by decide

theorem renamed_facts :
    ∀ n ∈ renamedNames, isIdentifier n = true ∧ realName n ≠ n ∧
      (n, [realName n]) ∈ renameBlock ∧ n ≠ SDL_DYNAMIC_API ∧
      n ≠ SDL_PLATFORM_PRIVATE_NAME := by
  decide

theorem renameBlock_facts :
    ∀ d ∈ renameBlock, d.1 ∈ renamedNames ∧ d.2 = [realName d.1] ∧
      d.1 ≠ SDL_DYNAMIC_API ∧ d.1 ≠ SDL_PLATFORM_PRIVATE_NAME := by
  decide

/-- A fresh inclusion processes the lines of the header and records the file. -/
theorem include_fresh (ov : MacroEnv → Except PPError MacroEnv) (st : PPState)
    (hfresh : headerPath ∉ st.onceFiles) :
    SDL_begin_config_private ov st =
      match headerLines ov st.env with
      | .ok env1 => .ok (PPState.mk env1 (headerPath :: st.onceFiles))
      | .error e => .error e := by
  simp [SDL_begin_config_private, hfresh]

theorem include_fresh_ok (ov : MacroEnv → Except PPError MacroEnv) (st st1 : PPState)
    (hfresh : headerPath ∉ st.onceFiles) (h : SDL_begin_config_private ov st = .ok st1) :
    headerLines ov st.env = .ok st1.env ∧ st1.onceFiles = headerPath :: st.onceFiles := by
  rw [include_fresh ov st hfresh] at h
  cases hl : headerLines ov st.env with
  | error e => rw [hl] at h; simp at h
  | ok env1 =>
    rw [hl] at h
    simp only [Except.ok.injEq] at h
    subst h
    exact ⟨rfl, rfl⟩

theorem include_marks_once (ov : MacroEnv → Except PPError MacroEnv) (st st1 : PPState)
    (h : SDL_begin_config_private ov st = .ok st1) : headerPath ∈ st1.onceFiles := by
  by_cases hfresh : headerPath ∈ st.onceFiles
  · simp only [SDL_begin_config_private, if_pos hfresh, Except.ok.injEq] at h
    subst h; exact hfresh
  · rw [(include_fresh_ok ov st st1 hfresh h).2]
    exact List.mem_cons_self _ _

theorem include_again (ov : MacroEnv → Except PPError MacroEnv) (st : PPState)
    (h : headerPath ∈ st.onceFiles) : SDL_begin_config_private ov st = .ok st := by
  simp [SDL_begin_config_private, h]

theorem includeTimes_marked (ov : MacroEnv → Except PPError MacroEnv) (n : Nat)
    (st : PPState) (h : headerPath ∈ st.onceFiles) : includeTimes ov n st = .ok st := by
  induction n with
  | zero => rfl
  | succ n ih => simp only [includeTimes, include_again ov st h, ih]

/-- With the flag inactive the lines of the header amount to line 2. -/
theorem headerLines_inactive (ov : MacroEnv → Except PPError MacroEnv) (env : MacroEnv)
    (h : compatMode env = .ok false) :
    headerLines ov env = ppDefine env SDL_PLATFORM_PRIVATE_NAME ["\"sorvi\""] := by
  unfold compatMode at h
  unfold headerLines
  cases hd : ppDefine env SDL_PLATFORM_PRIVATE_NAME ["\"sorvi\""] with
  | error e => rfl
  | ok env1 =>
    rw [hd] at h
    dsimp only at h
    dsimp only
    rw [h]

/-- With the flag active the lines of the header amount to line 2 followed by the
compatibility block. -/
theorem headerLines_active (ov : MacroEnv → Except PPError MacroEnv) (env : MacroEnv)
    (h : compatMode env = .ok true) :
    ∃ env1, ppDefine env SDL_PLATFORM_PRIVATE_NAME ["\"sorvi\""] = .ok env1 ∧
      headerLines ov env = compatBlock ov env1 := by
  unfold compatMode at h
  unfold headerLines
  cases hd : ppDefine env SDL_PLATFORM_PRIVATE_NAME ["\"sorvi\""] with
  | error e => rw [hd] at h; simp at h
  | ok env1 =>
    rw [hd] at h
    dsimp only at h
    dsimp only
    rw [h]
    exact ⟨env1, rfl, rfl⟩

theorem compatPrelude_ok (env env2 : MacroEnv) (h : compatPrelude env = .ok env2) :
    macroLookup env2 SDL_DYNAMIC_API = some ["1"] ∧
      (∀ n ∈ renamedNames, macroLookup env2 n = some [realName n]) ∧
      (∀ m c, macroLookup env m = some c → macroLookup env2 m = some c) ∧
      (∀ m, m ∉ renamedNames → m ≠ SDL_DYNAMIC_API →
        macroLookup env2 m = macroLookup env m) := by
  unfold compatPrelude at h
  cases hd : ppDefineAll renameBlock env with
  | error e => rw [hd] at h; simp at h
  | ok env1 =>
    rw [hd] at h
    simp only at h
    refine ⟨macroLookup_ppDefine_self env1 env2 _ _ h, ?_, ?_, ?_⟩
    · intro n hn
      have hf := renamed_facts n hn
      exact macroLookup_ppDefine_keep env1 env2 _ n _ _ h
        (ppDefineAll_defines renameBlock env env1 n _ hd hf.2.2.1)
    · intro m c hm
      exact macroLookup_ppDefine_keep env1 env2 _ m _ _ h
        (ppDefineAll_keep renameBlock env env1 m c hd hm)
    · intro m hm hmd
      rw [macroLookup_ppDefine_other env1 env2 _ m _ h hmd]
      apply ppDefineAll_other renameBlock env env1 m hd
      intro d hdm hdeq
      exact hm (hdeq ▸ (renameBlock_facts d hdm).1)

theorem compatBlock_ok (ov : MacroEnv → Except PPError MacroEnv) (env env3 : MacroEnv)
    (h : compatBlock ov env = .ok env3) :
    ∃ env1 env2, compatPrelude env = .ok env1 ∧ ov env1 = .ok env2 ∧
      env3 = ppUndef env2 SDL_DYNAMIC_API := by
  unfold compatBlock at h
  cases hp : compatPrelude env with
  | error e => rw [hp] at h; simp at h
  | ok env1 =>
    rw [hp] at h
    dsimp only at h
    cases ho : ov env1 with
    | error e => rw [ho] at h; simp at h
    | ok env2 =>
      rw [ho] at h
      simp only [Except.ok.injEq] at h
      exact ⟨env1, env2, rfl, ho, h.symm⟩

theorem activation_by_value_aux (ov : MacroEnv → Except PPError MacroEnv) (st : PPState)
    (hfresh : headerPath ∉ st.onceFiles) (hflag : compatMode st.env = .ok true) :
    ∃ env1, ppDefine st.env SDL_PLATFORM_PRIVATE_NAME ["\"sorvi\""] = .ok env1 ∧
      SDL_begin_config_private ov st =
        (compatBlock ov env1).map (fun e => PPState.mk e (headerPath :: st.onceFiles)) := by
  obtain ⟨env1, hd, hb⟩ := headerLines_active ov st.env hflag
  refine ⟨env1, hd, ?_⟩
  rw [include_fresh ov st hfresh, hb]
  cases compatBlock ov env1 <;> rfl

/-! ## Success and failure of a run of definitions -/

theorem ppDefineAll_compatible (ds : List (String × List Token)) :
    ∀ (env : MacroEnv), (ds.map Prod.fst).Nodup →
      (∀ d ∈ ds, macroLookup env d.1 = none ∨ macroLookup env d.1 = some d.2) →
      ∃ env1, ppDefineAll ds env = .ok env1 := by
  induction ds with
  | nil => intro env _ _; exact ⟨env, rfl⟩
  | cons d ds ih =>
    obtain ⟨k, c⟩ := d
    intro env hnd h
    have hk : k ∉ ds.map Prod.fst := (List.nodup_cons.mp hnd).1
    have hnd2 : (ds.map Prod.fst).Nodup := (List.nodup_cons.mp hnd).2
    have hd : ∃ env2, ppDefine env k c = .ok env2 := by
      rcases h (k, c) (List.mem_cons_self _ _) with h0 | h0
      · exact ⟨_, ppDefine_undefined env k c h0⟩
      · exact ⟨_, ppDefine_same env k c h0⟩
    obtain ⟨env2, hd⟩ := hd
    simp only [ppDefineAll, hd]
    apply ih env2 hnd2
    intro d hdm
    have hne : d.1 ≠ k := fun heq => hk (heq ▸ List.mem_map_of_mem Prod.fst hdm)
    rw [macroLookup_ppDefine_other env env2 k d.1 c hd hne]
    exact h d (List.mem_cons_of_mem _ hdm)

theorem ppDefineAll_error_conflict (ds : List (String × List Token)) :
    ∀ (env : MacroEnv) (e : PPError), (ds.map Prod.fst).Nodup →
      ppDefineAll ds env = .error e →
      ∃ d ∈ ds, e = .redefinition d.1 ∧
        ∃ old, macroLookup env d.1 = some old ∧ old ≠ d.2 := by
  induction ds with
  | nil => intro env e _ h; simp [ppDefineAll] at h
  | cons d ds ih =>
    obtain ⟨k, c⟩ := d
    intro env e hnd h
    have hk : k ∉ ds.map Prod.fst := (List.nodup_cons.mp hnd).1
    have hnd2 : (ds.map Prod.fst).Nodup := (List.nodup_cons.mp hnd).2
    simp only [ppDefineAll] at h
    cases hd : ppDefine env k c with
    | error e2 =>
      rw [hd] at h
      simp only [Except.error.injEq] at h
      subst h
      obtain ⟨he, old, ho, hne⟩ := ppDefine_error_cases env k c e2 hd
      exact ⟨(k, c), List.mem_cons_self _ _, he, old, ho, hne⟩
    | ok env2 =>
      rw [hd] at h
      obtain ⟨d, hdm, he, old, ho, hne⟩ := ih env2 e hnd2 h
      have hdk : d.1 ≠ k := fun heq => hk (heq ▸ List.mem_map_of_mem Prod.fst hdm)
      rw [macroLookup_ppDefine_other env env2 k d.1 c hd hdk] at ho
      exact ⟨d, List.mem_cons_of_mem _ hdm, he, old, ho, hne⟩

theorem renamedNames_nodup : renamedNames.Nodup := by decide

/-- The lines before the include succeed, or stop at a name of the rename block
that is already defined with another replacement list. -/
theorem compatPrelude_cases (env : MacroEnv) (hdyn : macroLookup env SDL_DYNAMIC_API = none) :
    (∃ env2, compatPrelude env = .ok env2) ∨
      (∃ m ∈ renamedNames, compatPrelude env = .error (.redefinition m) ∧
        ∃ old, macroLookup env m = some old ∧ old ≠ [realName m]) := by
  unfold compatPrelude
  cases hd : ppDefineAll renameBlock env with
  | error e =>
    right
    obtain ⟨d, hdm, he, old, ho, hne⟩ :=
      ppDefineAll_error_conflict renameBlock env e renamedNames_nodup hd
    have hf := renameBlock_facts d hdm
    refine ⟨d.1, hf.1, by rw [he], old, ho, ?_⟩
    rw [← hf.2.1]; exact hne
  | ok env1 =>
    left
    have h1 : macroLookup env1 SDL_DYNAMIC_API = none := by
      rw [ppDefineAll_other renameBlock env env1 _ hd
        (fun d hdm => (renameBlock_facts d hdm).2.2.1)]
      exact hdyn
    exact ⟨_, ppDefine_undefined env1 _ _ h1⟩

theorem macroLookup_mem (l : MacroEnv) (t : String) (b : List Token)
    (h : macroLookup l t = some b) : (t, b) ∈ l := by
  induction l with
  | nil => simp [macroLookup] at h
  | cons d l ih =>
    obtain ⟨k, c⟩ := d
    rw [macroLookup_cons] at h
    by_cases htk : t = k
    · rw [if_pos htk] at h
      simp only [Option.some.injEq] at h
      rw [htk, h]
      exact List.mem_cons_self _ _
    · rw [if_neg htk] at h
      exact List.mem_cons_of_mem _ (ih h)

theorem macroLookup_eq_some_iff (l : MacroEnv) (hnd : (l.map Prod.fst).Nodup) (t : String)
    (b : List Token) : macroLookup l t = some b ↔ (t, b) ∈ l := by
  refine ⟨macroLookup_mem l t b, ?_⟩
  induction l with
  | nil => intro h; cases h
  | cons d l ih =>
    obtain ⟨k, c⟩ := d
    intro h
    have hk : k ∉ l.map Prod.fst := (List.nodup_cons.mp hnd).1
    rw [macroLookup_cons]
    rcases List.mem_cons.mp h with heq | htl
    · cases heq; simp
    · have htk : t ≠ k := fun heq => hk (heq ▸ List.mem_map_of_mem Prod.fst htl)
      rw [if_neg htk]
      exact ih (List.nodup_cons.mp hnd).2 htl

theorem macroLookup_perm (l1 l2 : MacroEnv) (hnd : (l1.map Prod.fst).Nodup)
    (hp : l1.Perm l2) (t : String) : macroLookup l1 t = macroLookup l2 t := by
  have hnd2 : (l2.map Prod.fst).Nodup := (hp.map Prod.fst).nodup_iff.mp hnd
  apply Option.ext
  intro b
  rw [Option.mem_def, Option.mem_def, macroLookup_eq_some_iff l1 hnd,
    macroLookup_eq_some_iff l2 hnd2]
  exact hp.mem_iff

theorem flatMap_eq_self (g : Token → List Token) (l : List Token)
    (h : ∀ u ∈ l, g u = [u]) : l.flatMap g = l := by
  induction l with
  | nil => rfl
  | cons a l ih =>
    rw [List.flatMap_cons, h a (List.mem_cons_self _ _),
      ih (fun u hu => h u (List.mem_cons_of_mem _ hu))]
    rfl

theorem flatMap_pointwise (f g : Token → List Token) (l : List Token)
    (h : ∀ t, f t = g t) : l.flatMap f = l.flatMap g := by
  have : f = g := funext h
  rw [this]

theorem renameSeq_eq_flatMap (rs : List (String × List Token)) :
    (∀ d ∈ rs, ∀ u ∈ d.2, macroLookup rs u = none) →
      ∀ toks : List Token, renameSeq rs toks = toks.flatMap (replacementOf rs) := by
  induction rs with
  | nil =>
    intro _ toks
    show toks = toks.flatMap (replacementOf [])
    exact (flatMap_eq_self _ toks (fun u _ => rfl)).symm
  | cons r rs ih =>
    obtain ⟨k, c⟩ := r
    intro h toks
    have htail : ∀ d ∈ rs, ∀ u ∈ d.2, macroLookup rs u = none := by
      intro d hd u hu
      have := h d (List.mem_cons_of_mem _ hd) u hu
      rw [macroLookup_cons] at this
      by_cases huk : u = k
      · rw [if_pos huk] at this; cases this
      · rw [if_neg huk] at this; exact this
    have hc : ∀ u ∈ c, replacementOf rs u = [u] := by
      intro u hu
      have := h (k, c) (List.mem_cons_self _ _) u hu
      rw [macroLookup_cons] at this
      by_cases huk : u = k
      · rw [if_pos huk] at this; cases this
      · rw [if_neg huk] at this
        simp [replacementOf, this]
    show renameSeq rs (renameOne (k, c) toks) = _
    rw [ih htail, renameOne, List.flatMap_assoc]
    apply flatMap_pointwise
    intro t
    by_cases htk : t = k
    · simp only [htk, if_true, replacementOf, macroLookup_cons, Option.getD_some]
      exact flatMap_eq_self _ c hc
    · simp only [if_neg htk, replacementOf, macroLookup_cons, List.flatMap_cons,
        List.flatMap_nil, List.append_nil]

theorem renameBlock_targets :
    ∀ d ∈ renameBlock, ∀ u ∈ d.2, macroLookup renameBlock u = none ∧ u ∉ renamedNames := by
  decide

theorem expandToken_perm (rs : List (String × List Token)) (hperm : rs.Perm renameBlock)
    (t : Token) : expandToken rs.length rs t = replacementOf renameBlock t := by
  have hnd : (rs.map Prod.fst).Nodup :=
    (hperm.map Prod.fst).nodup_iff.mpr renamedNames_nodup
  have hl : ∀ u, macroLookup rs u = macroLookup renameBlock u :=
    macroLookup_perm rs renameBlock hnd hperm
  have hlen : rs.length = 6 + 1 := hperm.length_eq
  unfold replacementOf
  cases hb : macroLookup renameBlock t with
  | none => exact expandToken_undefined _ _ _ ((hl t).trans hb)
  | some b =>
    have hmem := macroLookup_mem renameBlock t b hb
    have hf := renameBlock_facts (t, b) hmem
    have ht := renameBlock_targets (t, b) hmem (realName t) (by rw [hf.2.1]; simp)
    simp only at hf
    rw [hlen, Option.getD_some, hf.2.1]
    apply expandToken_rename 6 rs t (realName t) (renamed_facts t hf.1).1
    · rw [hl t, hb, hf.2.1]
    · rw [hl]; exact ht.1

theorem expand_perm (rs : List (String × List Token)) (hperm : rs.Perm renameBlock)
    (toks : List Token) : expand rs toks = toks.flatMap (replacementOf renameBlock) := by
  unfold expand
  exact flatMap_pointwise _ _ toks (expandToken_perm rs hperm)

theorem replacementOf_idem (t u : Token) (hu : u ∈ replacementOf renameBlock t) :
    replacementOf renameBlock u = [u] := by
  unfold replacementOf at hu
  cases hb : macroLookup renameBlock t with
  | none =>
    rw [hb] at hu
    simp only [Option.getD_none, List.mem_singleton] at hu
    rw [hu]
    simp [replacementOf, hb]
  | some b =>
    rw [hb] at hu
    simp only [Option.getD_some] at hu
    have ht := renameBlock_targets (t, b) (macroLookup_mem renameBlock t b hb) u hu
    simp [replacementOf, ht.1]

/-! ## The claims -/

/-- C1 (as stated). With the flag defined as `1` and `SDL_VideoInit_REAL` itself a macro
that names `SDL_VideoInit`, the header is processed without error, and a
reference to the listed name `SDL_VideoInit` after it comes out of macro
expansion as the bare `SDL_VideoInit`, not as `SDL_VideoInit_REAL`. -/
theorem reference_not_renamed_when_target_is_macro :
    compatMode [(SDL_SORVI_SDL2_COMPAT_MODE, ["1"]), ("SDL_VideoInit_REAL", ["SDL_VideoInit"])] =
        .ok true ∧
      SDL_begin_config_private (overridesTable [])
          (PPState.mk [(SDL_SORVI_SDL2_COMPAT_MODE, ["1"]),
            ("SDL_VideoInit_REAL", ["SDL_VideoInit"])] []) =
        .ok (PPState.mk (renameBlock.reverse ++ [(SDL_PLATFORM_PRIVATE_NAME, ["\"sorvi\""]),
          (SDL_SORVI_SDL2_COMPAT_MODE, ["1"]), ("SDL_VideoInit_REAL", ["SDL_VideoInit"])])
          [headerPath]) ∧
      "SDL_VideoInit" ∈ renamedNames ∧
      expand (renameBlock.reverse ++ [(SDL_PLATFORM_PRIVATE_NAME, ["\"sorvi\""]),
          (SDL_SORVI_SDL2_COMPAT_MODE, ["1"]), ("SDL_VideoInit_REAL", ["SDL_VideoInit"])])
        ["SDL_VideoInit", "(", "NULL", ")"] = ["SDL_VideoInit", "(", "NULL", ")"] ∧
      "SDL_VideoInit" ∈ expand (renameBlock.reverse ++
          [(SDL_PLATFORM_PRIVATE_NAME, ["\"sorvi\""]), (SDL_SORVI_SDL2_COMPAT_MODE, ["1"]),
            ("SDL_VideoInit_REAL", ["SDL_VideoInit"])])
        ["SDL_VideoInit", "(", "NULL", ")"] :=
  ⟨rfl, rfl, by decide, by decide, by decide⟩

/-- C1 (amended). When the compatibility flag is set and the header has been
processed, then for every name `N` of the rename block whose counterpart
`N_REAL` is not itself defined as a macro, every reference to `N` in a token
sequence processed after the header is rewritten to exactly `N_REAL`, and no
bare `N` remains in the output of macro expansion. -/
theorem references_renamed_to_real (tbl : OverrideTable) (st st1 : PPState)
    (hfresh : headerPath ∉ st.onceFiles) (hflag : compatMode st.env = .ok true)
    (h : SDL_begin_config_private (overridesTable tbl) st = .ok st1)
    (n : String) (hn : n ∈ renamedNames)
    (hreal : macroLookup st1.env (realName n) = none) :
    (∀ l r : List Token,
      expand st1.env (l ++ n :: r) = expand st1.env l ++ realName n :: expand st1.env r) ∧
    ∀ toks : List Token, n ∉ expand st1.env toks := by
  have hf := renamed_facts n hn
  have hl := (include_fresh_ok _ st st1 hfresh h).1
  obtain ⟨env1, _, hb⟩ := headerLines_active (overridesTable tbl) st.env hflag
  rw [hb] at hl
  obtain ⟨env2, env3, hp, ho, he⟩ := compatBlock_ok _ env1 st1.env hl
  have hdef : macroLookup st1.env n = some [realName n] := by
    rw [he, macroLookup_ppUndef_other env3 _ n hf.2.2.2.1]
    exact ppDefineAll_keep tbl env2 env3 n _ ho ((compatPrelude_ok env1 env2 hp).2.1 n hn)
  refine ⟨?_, ?_⟩
  · intro l r
    obtain ⟨k, hk⟩ := length_pos_of_macroLookup st1.env n _ hdef
    rw [expand_append, expand_cons, hk, expandToken_rename k st1.env n _ hf.1 hdef hreal]
    rfl
  · exact not_mem_expand st1.env n (realName n) hf.1 hf.2.1 hdef hreal

theorem references_renamed_to_real_witness :
    headerPath ∉ ([] : List String) ∧
      compatMode [(SDL_SORVI_SDL2_COMPAT_MODE, ["1"])] = .ok true ∧
      SDL_begin_config_private (overridesTable [])
          (PPState.mk [(SDL_SORVI_SDL2_COMPAT_MODE, ["1"])] []) =
        .ok (PPState.mk (renameBlock.reverse ++ [(SDL_PLATFORM_PRIVATE_NAME, ["\"sorvi\""]),
          (SDL_SORVI_SDL2_COMPAT_MODE, ["1"])]) [headerPath]) ∧
      "SDL_VideoInit" ∈ renamedNames ∧
      macroLookup (renameBlock.reverse ++ [(SDL_PLATFORM_PRIVATE_NAME, ["\"sorvi\""]),
          (SDL_SORVI_SDL2_COMPAT_MODE, ["1"])]) (realName "SDL_VideoInit") = none ∧
      "SDL_VideoInit" ∉ expand (renameBlock.reverse ++
          [(SDL_PLATFORM_PRIVATE_NAME, ["\"sorvi\""]), (SDL_SORVI_SDL2_COMPAT_MODE, ["1"])])
        ["SDL_VideoInit", "(", "NULL", ")"] :=
  ⟨by decide, rfl, rfl, by decide, rfl,
    (references_renamed_to_real []
      (PPState.mk [(SDL_SORVI_SDL2_COMPAT_MODE, ["1"])] [])
      (PPState.mk (renameBlock.reverse ++ [(SDL_PLATFORM_PRIVATE_NAME, ["\"sorvi\""]),
          (SDL_SORVI_SDL2_COMPAT_MODE, ["1"])]) [headerPath])
      (by decide) rfl rfl "SDL_VideoInit" (by decide) rfl).2
      ["SDL_VideoInit", "(", "NULL", ")"]⟩

/-- C2. When the compatibility flag is unset the header renames nothing: none of
the names of the rename block gets a macro definition from the header, and a
listed name that was not a macro before passes through macro expansion
unchanged wherever it occurs in a token sequence. -/
theorem no_renaming_when_unset (ov : MacroEnv → Except PPError MacroEnv) (st st1 : PPState)
    (hfresh : headerPath ∉ st.onceFiles) (hflag : compatMode st.env = .ok false)
    (h : SDL_begin_config_private ov st = .ok st1) :
    ∀ n ∈ renamedNames,
      macroLookup st1.env n = macroLookup st.env n ∧
      (macroLookup st.env n = none →
        ∀ l r : List Token,
          expand st1.env (l ++ n :: r) = expand st1.env l ++ n :: expand st1.env r) := by
  intro n hn
  have hd := (include_fresh_ok ov st st1 hfresh h).1
  rw [headerLines_inactive ov st.env hflag] at hd
  have hl : macroLookup st1.env n = macroLookup st.env n :=
    macroLookup_ppDefine_other _ _ _ n _ hd (renamed_facts n hn).2.2.2.2
  refine ⟨hl, ?_⟩
  intro hnone l r
  rw [expand_append, expand_cons, expandToken_undefined _ _ _ (hl.trans hnone)]
  rfl

theorem no_renaming_when_unset_witness :
    headerPath ∉ ([] : List String) ∧
      compatMode [(SDL_SORVI_SDL2_COMPAT_MODE, ["0"])] = .ok false ∧
      SDL_begin_config_private (overridesTable [])
          (PPState.mk [(SDL_SORVI_SDL2_COMPAT_MODE, ["0"])] []) =
        .ok (PPState.mk [(SDL_PLATFORM_PRIVATE_NAME, ["\"sorvi\""]),
          (SDL_SORVI_SDL2_COMPAT_MODE, ["0"])] [headerPath]) ∧
      "SDL_VideoInit" ∈ renamedNames ∧
      macroLookup [(SDL_SORVI_SDL2_COMPAT_MODE, ["0"])] "SDL_VideoInit" = none ∧
      expand [(SDL_PLATFORM_PRIVATE_NAME, ["\"sorvi\""]), (SDL_SORVI_SDL2_COMPAT_MODE, ["0"])]
          (["SDL_CreateThreadWithStackSize", "("] ++ "SDL_VideoInit" :: [")"]) =
        expand [(SDL_PLATFORM_PRIVATE_NAME, ["\"sorvi\""]), (SDL_SORVI_SDL2_COMPAT_MODE, ["0"])]
            ["SDL_CreateThreadWithStackSize", "("] ++
          "SDL_VideoInit" ::
            expand [(SDL_PLATFORM_PRIVATE_NAME, ["\"sorvi\""]),
              (SDL_SORVI_SDL2_COMPAT_MODE, ["0"])] [")"] :=
  ⟨by decide, rfl, rfl, by decide, rfl,
    ((no_renaming_when_unset (overridesTable [])
      (PPState.mk [(SDL_SORVI_SDL2_COMPAT_MODE, ["0"])] [])
      (PPState.mk [(SDL_PLATFORM_PRIVATE_NAME, ["\"sorvi\""]),
          (SDL_SORVI_SDL2_COMPAT_MODE, ["0"])] [headerPath])
      (by decide) rfl rfl "SDL_VideoInit" (by decide)).2 rfl)
      ["SDL_CreateThreadWithStackSize", "("] [")"]⟩

/-- C3. When the compatibility flag is set, then whatever the macro environment
before the header and whatever the included override table does,
`SDL_DYNAMIC_API` is not defined once the header has been processed. -/
theorem dynamic_api_not_leaked (ov : MacroEnv → Except PPError MacroEnv) (st st1 : PPState)
    (hfresh : headerPath ∉ st.onceFiles) (hflag : compatMode st.env = .ok true)
    (h : SDL_begin_config_private ov st = .ok st1) :
    macroLookup st1.env SDL_DYNAMIC_API = none := by
  have hl := (include_fresh_ok ov st st1 hfresh h).1
  obtain ⟨env1, _, hb⟩ := headerLines_active ov st.env hflag
  rw [hb] at hl
  obtain ⟨env2, env3, _, _, he⟩ := compatBlock_ok ov env1 st1.env hl
  rw [he]
  exact macroLookup_ppUndef_self env3 SDL_DYNAMIC_API

theorem dynamic_api_not_leaked_witness :
    headerPath ∉ ([] : List String) ∧
      compatMode [(SDL_SORVI_SDL2_COMPAT_MODE, ["1"]), (SDL_DYNAMIC_API, ["1"])] = .ok true ∧
      SDL_begin_config_private (overridesTable [])
          (PPState.mk [(SDL_SORVI_SDL2_COMPAT_MODE, ["1"]), (SDL_DYNAMIC_API, ["1"])] []) =
        .ok (PPState.mk (renameBlock.reverse ++ [(SDL_PLATFORM_PRIVATE_NAME, ["\"sorvi\""]),
          (SDL_SORVI_SDL2_COMPAT_MODE, ["1"])]) [headerPath]) ∧
      macroLookup (renameBlock.reverse ++ [(SDL_PLATFORM_PRIVATE_NAME, ["\"sorvi\""]),
          (SDL_SORVI_SDL2_COMPAT_MODE, ["1"])]) SDL_DYNAMIC_API = none :=
  ⟨by decide, rfl, rfl,
    dynamic_api_not_leaked (overridesTable [])
      (PPState.mk [(SDL_SORVI_SDL2_COMPAT_MODE, ["1"]), (SDL_DYNAMIC_API, ["1"])] [])
      (PPState.mk (renameBlock.reverse ++ [(SDL_PLATFORM_PRIVATE_NAME, ["\"sorvi\""]),
          (SDL_SORVI_SDL2_COMPAT_MODE, ["1"])]) [headerPath])
      (by decide) rfl rfl⟩

/-- C4. With the compatibility flag set and `SDL_DYNAMIC_API` not defined before the
header, processing either stops at a name of the rename block that already had
another definition, or reaches line 13 with one macro environment `env2`, the
same for every override table, in which `SDL_DYNAMIC_API` is defined as `1`
and every name of the rename block is defined as its `_REAL` counterpart; the
override table is applied to `env2`.  With the flag unset the outcome does not
depend on the override table, which is not included. -/
theorem override_table_environment (st : PPState) (hfresh : headerPath ∉ st.onceFiles) :
    (compatMode st.env = .ok true → macroLookup st.env SDL_DYNAMIC_API = none →
      (∃ env2, macroLookup env2 SDL_DYNAMIC_API = some ["1"] ∧
          (∀ n ∈ renamedNames, macroLookup env2 n = some [realName n]) ∧
          ∀ ov : MacroEnv → Except PPError MacroEnv,
            SDL_begin_config_private ov st =
              (ov env2).map
                (fun e => PPState.mk (ppUndef e SDL_DYNAMIC_API) (headerPath :: st.onceFiles))) ∨
        (∃ m ∈ renamedNames,
          (∃ old, macroLookup st.env m = some old ∧ old ≠ [realName m]) ∧
          ∀ ov : MacroEnv → Except PPError MacroEnv,
            SDL_begin_config_private ov st = .error (.redefinition m))) ∧
    (compatMode st.env = .ok false →
      ∀ ov : MacroEnv → Except PPError MacroEnv,
        SDL_begin_config_private ov st =
          (ppDefine st.env SDL_PLATFORM_PRIVATE_NAME ["\"sorvi\""]).map
            (fun e => PPState.mk e (headerPath :: st.onceFiles))) := by
  refine ⟨?_, ?_⟩
  · intro hflag hdyn
    obtain ⟨env1, hd, _⟩ := headerLines_active (fun e => .ok e) st.env hflag
    have hdyn1 : macroLookup env1 SDL_DYNAMIC_API = none := by
      rw [macroLookup_ppDefine_other _ _ _ _ _ hd dynamic_ne_platform]; exact hdyn
    have hact : ∀ ov : MacroEnv → Except PPError MacroEnv,
        SDL_begin_config_private ov st =
          (compatBlock ov env1).map (fun e => PPState.mk e (headerPath :: st.onceFiles)) := by
      intro ov
      obtain ⟨env1b, hdb, hb⟩ := (activation_by_value_aux ov st hfresh hflag)
      rw [hd] at hdb
      simp only [Except.ok.injEq] at hdb
      subst hdb
      exact hb
    rcases compatPrelude_cases env1 hdyn1 with ⟨env2, hp⟩ | ⟨m, hm, hp, old, ho, hne⟩
    · left
      have hprops := compatPrelude_ok env1 env2 hp
      refine ⟨env2, hprops.1, hprops.2.1, ?_⟩
      intro ov
      rw [hact ov]
      unfold compatBlock
      rw [hp]
      dsimp only
      cases ov env2 <;> rfl
    · right
      refine ⟨m, hm, ⟨old, ?_, hne⟩, ?_⟩
      · rw [← macroLookup_ppDefine_other _ _ _ m _ hd (renamed_facts m hm).2.2.2.2]
        exact ho
      · intro ov
        rw [hact ov]
        unfold compatBlock
        rw [hp]
        rfl
  · intro hflag ov
    rw [include_fresh ov st hfresh, headerLines_inactive ov st.env hflag]
    cases ppDefine st.env SDL_PLATFORM_PRIVATE_NAME ["\"sorvi\""] <;> rfl

theorem override_table_environment_witness :
    headerPath ∉ ([] : List String) ∧
      compatMode [(SDL_SORVI_SDL2_COMPAT_MODE, ["1"])] = .ok true ∧
      macroLookup [(SDL_SORVI_SDL2_COMPAT_MODE, ["1"])] SDL_DYNAMIC_API = none ∧
      ((∃ env2, macroLookup env2 SDL_DYNAMIC_API = some ["1"] ∧
          (∀ n ∈ renamedNames, macroLookup env2 n = some [realName n]) ∧
          ∀ ov : MacroEnv → Except PPError MacroEnv,
            SDL_begin_config_private ov (PPState.mk [(SDL_SORVI_SDL2_COMPAT_MODE, ["1"])] []) =
              (ov env2).map
                (fun e => PPState.mk (ppUndef e SDL_DYNAMIC_API) [headerPath])) ∨
        (∃ m ∈ renamedNames,
          (∃ old, macroLookup [(SDL_SORVI_SDL2_COMPAT_MODE, ["1"])] m = some old ∧
            old ≠ [realName m]) ∧
          ∀ ov : MacroEnv → Except PPError MacroEnv,
            SDL_begin_config_private ov (PPState.mk [(SDL_SORVI_SDL2_COMPAT_MODE, ["1"])] []) =
              .error (.redefinition m))) :=
  ⟨by decide, rfl, rfl,
    (override_table_environment (PPState.mk [(SDL_SORVI_SDL2_COMPAT_MODE, ["1"])] [])
      (by decide)).1 rfl rfl⟩

/-- C5. Including the header again is a no-op: for every macro environment, every
override table and either value of the flag, `n + 1` inclusions in a row give
exactly the outcome of one inclusion, so the macro environment is the same and
no redefinition is reported by the later inclusions; and once the header has
been included, including it again changes nothing, whatever the macro
environment has become in between. -/
theorem reinclusion_idempotent (ov : MacroEnv → Except PPError MacroEnv) (n : Nat)
    (st : PPState) :
    includeTimes ov (n + 1) st = SDL_begin_config_private ov st ∧
      ∀ st1, SDL_begin_config_private ov st = .ok st1 →
        ∀ env : MacroEnv,
          SDL_begin_config_private ov (PPState.mk env st1.onceFiles) =
            .ok (PPState.mk env st1.onceFiles) := by
  refine ⟨?_, ?_⟩
  · simp only [includeTimes]
    cases h : SDL_begin_config_private ov st with
    | error e => rfl
    | ok st1 => exact includeTimes_marked ov n st1 (include_marks_once ov st st1 h)
  · intro st1 h env
    exact include_again ov (PPState.mk env st1.onceFiles) (include_marks_once ov st st1 h)

theorem reinclusion_idempotent_witness :
    SDL_begin_config_private (overridesTable [])
        (PPState.mk [(SDL_SORVI_SDL2_COMPAT_MODE, ["1"])] []) =
      .ok (PPState.mk (renameBlock.reverse ++ [(SDL_PLATFORM_PRIVATE_NAME, ["\"sorvi\""]),
        (SDL_SORVI_SDL2_COMPAT_MODE, ["1"])]) [headerPath]) ∧
    SDL_begin_config_private (overridesTable [])
        (PPState.mk [(SDL_SORVI_SDL2_COMPAT_MODE, ["1"]), ("SDL_VideoInit", ["other"])]
          [headerPath]) =
      .ok (PPState.mk [(SDL_SORVI_SDL2_COMPAT_MODE, ["1"]), ("SDL_VideoInit", ["other"])]
        [headerPath]) :=
  ⟨rfl,
    (reinclusion_idempotent (overridesTable []) 1
      (PPState.mk [(SDL_SORVI_SDL2_COMPAT_MODE, ["1"])] [])).2
      (PPState.mk (renameBlock.reverse ++ [(SDL_PLATFORM_PRIVATE_NAME, ["\"sorvi\""]),
        (SDL_SORVI_SDL2_COMPAT_MODE, ["1"])]) [headerPath])
      rfl [(SDL_SORVI_SDL2_COMPAT_MODE, ["1"]), ("SDL_VideoInit", ["other"])]⟩

/-- C6 (as stated). The rename table does not consist of exactly six names. -/
theorem rename_table_not_six :
    ¬ (renameBlock.length = 6 ∧ ∀ d ∈ renameBlock, d.2 = [realName d.1]) :=
  fun h => absurd h.1 (by decide)

/-- C6 (amended). The rename table applied when the compatibility flag is set
consists of exactly seven pairwise distinct names, each mapped to the name
with the suffix `_REAL` appended; with the flag defined as `1` and an empty
override table, the header adds exactly these seven definitions and the
platform name to the macro environment. -/
theorem rename_table_seven :
    renameBlock.length = 7 ∧ renamedNames.Nodup ∧
      (∀ d ∈ renameBlock, d.2 = [d.1 ++ "_REAL"]) ∧
      headerLines (overridesTable []) [(SDL_SORVI_SDL2_COMPAT_MODE, ["1"])] =
        .ok (renameBlock.reverse ++
          [(SDL_PLATFORM_PRIVATE_NAME, ["\"sorvi\""]), (SDL_SORVI_SDL2_COMPAT_MODE, ["1"])]) :=
  ⟨by decide, by decide, by decide, rfl⟩

/-- C8. After the header has been processed, for either value of the compatibility
flag and every override table, `SDL_PLATFORM_PRIVATE_NAME` is defined as the
string `"sorvi"`. -/
theorem platform_name_defined (tbl : OverrideTable) (st st1 : PPState)
    (hfresh : headerPath ∉ st.onceFiles)
    (h : SDL_begin_config_private (overridesTable tbl) st = .ok st1) :
    macroLookup st1.env SDL_PLATFORM_PRIVATE_NAME = some ["\"sorvi\""] := by
  have hl := (include_fresh_ok _ st st1 hfresh h).1
  unfold headerLines at hl
  cases hd : ppDefine st.env SDL_PLATFORM_PRIVATE_NAME ["\"sorvi\""] with
  | error e => rw [hd] at hl; simp at hl
  | ok env1 =>
    rw [hd] at hl
    dsimp only at hl
    have h1 := macroLookup_ppDefine_self st.env env1 _ _ hd
    cases hc : ppIf env1 [SDL_SORVI_SDL2_COMPAT_MODE] with
    | error e => rw [hc] at hl; simp at hl
    | ok b =>
      rw [hc] at hl
      cases b with
      | false =>
        simp only [Except.ok.injEq] at hl
        rw [← hl]; exact h1
      | true =>
        dsimp only at hl
        obtain ⟨env2, env3, hp, ho, he⟩ := compatBlock_ok _ env1 st1.env hl
        rw [he, macroLookup_ppUndef_other env3 _ _ (Ne.symm dynamic_ne_platform)]
        exact ppDefineAll_keep tbl env2 env3 _ _ ho ((compatPrelude_ok env1 env2 hp).2.2.1 _ _ h1)

theorem platform_name_defined_witness :
    headerPath ∉ ([] : List String) ∧
      SDL_begin_config_private
          (overridesTable [("SDL_Init", ["SDL_Init_REAL"])])
          (PPState.mk [(SDL_SORVI_SDL2_COMPAT_MODE, ["1"])] []) =
        .ok (PPState.mk (("SDL_Init", ["SDL_Init_REAL"]) :: renameBlock.reverse ++
          [(SDL_PLATFORM_PRIVATE_NAME, ["\"sorvi\""]), (SDL_SORVI_SDL2_COMPAT_MODE, ["1"])])
          [headerPath]) ∧
      macroLookup (("SDL_Init", ["SDL_Init_REAL"]) :: renameBlock.reverse ++
          [(SDL_PLATFORM_PRIVATE_NAME, ["\"sorvi\""]), (SDL_SORVI_SDL2_COMPAT_MODE, ["1"])])
        SDL_PLATFORM_PRIVATE_NAME = some ["\"sorvi\""] :=
  ⟨by decide, rfl,
    platform_name_defined [("SDL_Init", ["SDL_Init_REAL"])]
      (PPState.mk [(SDL_SORVI_SDL2_COMPAT_MODE, ["1"])] [])
      (PPState.mk (("SDL_Init", ["SDL_Init_REAL"]) :: renameBlock.reverse ++
          [(SDL_PLATFORM_PRIVATE_NAME, ["\"sorvi\""]), (SDL_SORVI_SDL2_COMPAT_MODE, ["1"])])
          [headerPath])
      (by decide) rfl⟩

/-- C9. The renames are independent and do not overlap: the renamed names are
pairwise distinct and no `_REAL` target is one of the renamed names; applying
the renames one after the other in any order, or expanding under the same
renames listed in any order, gives the result of expanding under the rename
block; and renaming a token sequence twice gives the same as renaming it
once. -/
theorem renames_independent (rs : List (String × List Token))
    (hperm : rs.Perm renameBlock) (toks : List Token) :
    renamedNames.Nodup ∧
      (∀ d ∈ renameBlock, ∀ u ∈ d.2, u ∉ renamedNames) ∧
      renameSeq rs toks = expand renameBlock toks ∧
      expand rs toks = expand renameBlock toks ∧
      expand renameBlock (expand renameBlock toks) = expand renameBlock toks := by
  have hnd : (rs.map Prod.fst).Nodup :=
    (hperm.map Prod.fst).nodup_iff.mpr renamedNames_nodup
  have hl : ∀ u, macroLookup rs u = macroLookup renameBlock u :=
    macroLookup_perm rs renameBlock hnd hperm
  have hbase := expand_perm renameBlock (List.Perm.refl _)
  refine ⟨renamedNames_nodup, fun d hd u hu => (renameBlock_targets d hd u hu).2, ?_, ?_, ?_⟩
  · rw [hbase toks, renameSeq_eq_flatMap rs]
    · apply flatMap_pointwise
      intro t
      simp only [replacementOf, hl]
    · intro d hd u hu
      rw [hl]
      exact (renameBlock_targets d (hperm.mem_iff.mp hd) u hu).1
  · rw [hbase toks, expand_perm rs hperm toks]
  · rw [hbase toks, hbase, List.flatMap_assoc]
    have : ∀ l : List Token,
        l.flatMap (fun t => (replacementOf renameBlock t).flatMap (replacementOf renameBlock)) =
          l.flatMap (replacementOf renameBlock) := by
      intro l
      apply flatMap_pointwise
      intro t
      exact flatMap_eq_self _ _ (replacementOf_idem t)
    exact this toks

theorem renames_independent_witness :
    renameBlock.reverse.Perm renameBlock ∧
      renameSeq renameBlock.reverse ["SDL_LockSensors", "(", ")", ";", "SDL_VideoQuit"] =
        expand renameBlock ["SDL_LockSensors", "(", ")", ";", "SDL_VideoQuit"] :=
  ⟨List.reverse_perm renameBlock,
    (renames_independent renameBlock.reverse (List.reverse_perm renameBlock)
      ["SDL_LockSensors", "(", ")", ";", "SDL_VideoQuit"]).2.2.1⟩

end SorviConfig
